import Mathlib

/-!
Verification of the `Utility` class (Utility.hpp / Utility.cpp).

`std::string` values are modelled as lists of byte values (`List Nat`);
`std::vector<std::string>` as `List (List Nat)`.  Each definition below is a
direct translation of the corresponding member function of `Utility`.
Loops are modelled with an explicit fuel argument large enough that, under
the preconditions the claims state (non-empty delimiter / search string),
the fuel is never exhausted; fuel-irrelevance lemmas below make this formal.
-/

/-- Byte list of a string literal (convenience for concrete test inputs). -/
def strBytes (s : String) : List Nat := s.toList.map Char.toNat

/-- C `isgraph` in the C locale: printable and not space, i.e. 0x21..0x7E. -/
def isgraphB (b : Nat) : Bool := decide (33 ≤ b ∧ b ≤ 126)

/-- `Utility::ltrim`: erase from the start up to the first `isgraph` char. -/
def ltrim (s : List Nat) : List Nat := s.dropWhile (fun b => !isgraphB b)

/-- `Utility::rtrim`: erase from after the last `isgraph` char to the end. -/
def rtrim (s : List Nat) : List Nat := (s.reverse.dropWhile (fun b => !isgraphB b)).reverse

/-- `Utility::trim`: `ltrim(rtrim(s))`. -/
def trim (s : List Nat) : List Nat := ltrim (rtrim s)

/-- C `tolower` in the C locale: map `A`..`Z` to `a`..`z`, else identity. -/
def tolowerB (b : Nat) : Nat := if 65 ≤ b ∧ b ≤ 90 then b + 32 else b

/-- `Utility::strtolower`: `std::transform` with `::tolower`. -/
def strtolower (s : List Nat) : List Nat := s.map tolowerB

/-- `std::string::find(d, 0)` on `s`: least index at which `d` occurs as a
prefix of the remaining suffix, `none` when there is no occurrence
(`npos`).  With `d = []` it returns `some 0`, as `find` of an empty string
returns its start position. -/
def strFind (d : List Nat) : List Nat → Option Nat
  | [] => if d.isEmpty then some 0 else none
  | a :: t => if d.isPrefixOf (a :: t) then some 0 else (strFind d t).map (· + 1)

/-- Loop of `Utility::explode`, with fuel.  One step: find the next
occurrence of `d` (the source tracks an absolute position `lpos`; here the
already-split prefix is dropped instead, which keeps indices relative), push
the piece before it, continue after the occurrence; when there is no
occurrence push the remaining suffix.  For `d ≠ []` every step consumes at
least one byte, so fuel `s.length + 1` is never exhausted (for `d = []` the
source loops forever; the spec calls that case undefined). -/
def explodeGo (d : List Nat) : Nat → List Nat → List (List Nat)
  | 0, s => [s]
  | fuel + 1, s =>
    match strFind d s with
    | none => [s]
    | some i => s.take i :: explodeGo d fuel (s.drop (i + d.length))

/-- `Utility::explode(s, d)`. -/
def explode (s d : List Nat) : List (List Nat) := explodeGo d (s.length + 1) s

/-- `Utility::implode(v, d)`: fold appending each element, preceded by the
delimiter whenever the accumulated result is non-empty. -/
def implode (v : List (List Nat)) (d : List Nat) : List Nat :=
  v.foldl (fun result s => (if 0 < result.length then result ++ d else result) ++ s) []

/-- `n` copies of `s` appended left to right (`result += s` per iteration). -/
def repStr (s : List Nat) : Nat → List Nat
  | 0 => []
  | k + 1 => repStr s k ++ s

/-- `Utility::repeat(s, n)` with `int n`: the loop `for (i = 0; i < n; i++)`
runs once for every integer `0 ≤ i < n`, i.e. `n.toNat` times. -/
def repeatStr (s : List Nat) (n : Int) : List Nat := repStr s n.toNat

/-- Loop of `Utility::replace`, with fuel.  State: current `result` string
and resume position `searchPos`.  One step: find `search` at or after
`searchPos`; if absent stop, else splice in `repl` and resume immediately
after it.  (The source declares the loop variables as
`size_t search_pos = 0, auto offset = ...`, ill-formed spelling of two
`size_t` variables; the evident intent is modelled.)  For `search ≠ []`
each step strictly shrinks `result.length - searchPos`, so fuel
`subject.length + 1` is never exhausted. -/
def replaceGo (search repl : List Nat) : Nat → List Nat → Nat → List Nat
  | 0, result, _ => result
  | fuel + 1, result, searchPos =>
    match (strFind search (result.drop searchPos)).map (· + searchPos) with
    | none => result
    | some offset =>
      replaceGo search repl fuel
        (result.take offset ++ repl ++ result.drop (offset + search.length))
        (offset + repl.length)

/-- Same loop, but counting iterations: `none` when the loop has not exited
within `fuel` iterations.  Used to state that the loop terminates. -/
def replaceSteps (search repl : List Nat) : Nat → List Nat → Nat → Option (List Nat)
  | 0, _, _ => none
  | fuel + 1, result, searchPos =>
    match (strFind search (result.drop searchPos)).map (· + searchPos) with
    | none => some result
    | some offset =>
      replaceSteps search repl fuel
        (result.take offset ++ repl ++ result.drop (offset + search.length))
        (offset + repl.length)

/-- `Utility::replace(search, replace, subject)`: guard on empty `search`,
then run the loop on a copy of `subject` from position 0. -/
def replace (search repl subject : List Nat) : List Nat :=
  if search = [] then subject else replaceGo search repl (subject.length + 1) subject 0

/-- `AF_INET` on Linux. -/
def AF_INET : Int := 2

/-- `AF_INET6` on Linux. -/
def AF_INET6 : Int := 10

/-- One node of the `addrinfo` result list of `getaddrinfo`: the reported
address family and the raw bytes of `*ai_addr` beyond the family tag.
(`getaddrinfo` guarantees `ai_family == ai_addr->sa_family`; the two are
modelled as the single field `ai_family`.) -/
structure AddrInfo where
  ai_family : Int
  sa_data : List Nat

/-- `struct sockaddr_storage` after `memcpy` of a `sockaddr`: the family
tag and the raw payload bytes. -/
structure SockaddrStorage where
  ss_family : Int
  sa_data : List Nat

/-- The fixed text of the `std::runtime_error` thrown by `parse_addr`. -/
def errMsg : List Nat := strBytes "Could not parse the provided address."

/-- `Utility::parse_addr`, parametrised by the address-resolution service:
`resolver addr` returns the `getaddrinfo` status code and the (possibly
empty, i.e. null) result list.  Failure of the call, an empty result, or a
first result whose family is neither `AF_INET` nor `AF_INET6` throws; on
success the first result's `sockaddr` is copied verbatim into the storage. -/
def parse_addr (resolver : List Nat → Int × List AddrInfo) (addr : List Nat) :
    Except (List Nat) SockaddrStorage :=
  match resolver addr with
  | (rc, res) =>
    if rc ≠ 0 then Except.error errMsg
    else
      match res with
      | [] => Except.error errMsg
      | c :: _ =>
        if c.ai_family ≠ AF_INET ∧ c.ai_family ≠ AF_INET6 then Except.error errMsg
        else Except.ok ⟨c.ai_family, c.sa_data⟩

/-- Modelled from the spec's words (§4.2 `join`): concatenation with the
delimiter inserted strictly between consecutive elements.  Used to compare
`implode` against the specified behaviour. -/
def joinSpec : List (List Nat) → List Nat → List Nat
  | [], _ => []
  | [x], _ => x
  | x :: y :: ys, d => x ++ d ++ joinSpec (y :: ys) d

/-- Modelled from the spec's words (§4.2 `replaceAll`, for non-empty
`search`): scan the subject left to right; at each position where `search`
starts, emit `repl` and continue after the occurrence (the emitted `repl`
is never re-scanned); otherwise copy one byte.  Used to compare `replace`
against the specified behaviour. -/
def replaceSpec (search repl : List Nat) (subject : List Nat) : List Nat :=
  if h : search ≠ [] ∧ search.isPrefixOf subject then
    repl ++ replaceSpec search repl (subject.drop search.length)
  else
    match subject with
    | [] => []
    | c :: t => c :: replaceSpec search repl t
termination_by subject.length
decreasing_by
  · have h1 : 0 < search.length := List.length_pos.mpr h.1
    have h2 : search.length ≤ subject.length :=
      ( List.isPrefixOf_iff_prefix.mp h.2).length_le
    simp only [List.length_drop]
    omega
  · simp

/-- Boundary condition under which `explode` inverts `implode`: every
element other than the last is immediately recognisable, i.e. the first
occurrence of the delimiter in `x ++ d` is the trailing one (so `d` neither
occurs inside `x` nor straddles the boundary between `x` and the following
delimiter), and the last element does not contain `d` at all. -/
def goodParts (d : List Nat) : List (List Nat) → Bool
  | [] => true
  | [x] => decide (¬ d <:+: x)
  | x :: y :: ys => decide (strFind d (x ++ d) = some x.length) && goodParts d (y :: ys)

theorem strFind_some_drop {d : List Nat} :
    ∀ {s : List Nat} {i : Nat}, strFind d s = some i → d <+: List.drop i s := by
  intro s
  induction s with
  | nil =>
    intro i h
    simp only [strFind] at h
    split at h
    · next hd =>
      cases h
      simp [List.isEmpty_iff.mp hd]
    · cases h
  | cons a t ih =>
    intro i h
    simp only [strFind] at h
    split at h
    · next hp =>
      cases h
      simpa using List.isPrefixOf_iff_prefix.mp hp
    · next hp =>
      rcases Option.map_eq_some'.mp h with ⟨j, hj, rfl⟩
      simpa using ih hj

theorem strFind_some_min {d : List Nat} :
    ∀ {s : List Nat} {i : Nat}, strFind d s = some i →
      ∀ j, j < i → ¬ d <+: List.drop j s := by
  intro s
  induction s with
  | nil =>
    intro i h j hj
    simp only [strFind] at h
    split at h
    · cases h; omega
    · cases h
  | cons a t ih =>
    intro i h j hj
    simp only [strFind] at h
    split at h
    · cases h; omega
    · next hp =>
      rcases Option.map_eq_some'.mp h with ⟨k, hk, rfl⟩
      match j with
      | 0 =>
        intro hcon
        exact hp ( List.isPrefixOf_iff_prefix.mpr (by simpa using hcon))
      | Nat.succ j' =>
        simpa using ih hk j' (by omega)

theorem strFind_none_drop {d : List Nat} (hd : d ≠ []) :
    ∀ {s : List Nat}, strFind d s = none → ∀ j, ¬ d <+: List.drop j s := by
  intro s
  induction s with
  | nil =>
    intro _ j hcon
    simp at hcon
    exact hd (List.eq_nil_of_prefix_nil (by simpa using hcon))
  | cons a t ih =>
    intro h j
    simp only [strFind] at h
    split at h
    · cases h
    · next hp =>
      have ht : strFind d t = none := by
        cases hfind : strFind d t with
        | none => rfl
        | some k => rw [hfind] at h; cases h
      match j with
      | 0 =>
        intro hcon
        exact hp ( List.isPrefixOf_iff_prefix.mpr (by simpa using hcon))
      | Nat.succ j' =>
        simpa using ih ht j'

theorem strFind_eq_some {d : List Nat} :
    ∀ {s : List Nat} {i : Nat}, d <+: List.drop i s →
      (∀ j, j < i → ¬ d <+: List.drop j s) → strFind d s = some i := by
  intro s
  induction s with
  | nil =>
    intro i hocc hmin
    have hd : d = [] := List.eq_nil_of_prefix_nil (by simpa using hocc)
    subst hd
    have hi : i = 0 := by
      by_contra hne
      exact hmin 0 (by omega) (by simp)
    subst hi
    simp [strFind]
  | cons a t ih =>
    intro i hocc hmin
    match i with
    | 0 =>
      have hp : d.isPrefixOf (a :: t) := List.isPrefixOf_iff_prefix.mpr (by simpa using hocc)
      simp [strFind, hp]
    | Nat.succ k =>
      have hp : ¬ d.isPrefixOf (a :: t) := by
        intro hcon
        exact hmin 0 (by omega) (by simpa using List.isPrefixOf_iff_prefix.mp hcon)
      have ht : strFind d t = some k := by
        apply ih (by simpa using hocc)
        intro j hj hcon
        exact hmin (j + 1) (by omega) (by simpa using hcon)
      simp [strFind, hp, ht]

theorem strFind_some_bounds {d s : List Nat} {i : Nat} (hd : d ≠ [])
    (h : strFind d s = some i) : i + d.length ≤ s.length := by
  have hocc := strFind_some_drop h
  have hlen : d.length ≤ (List.drop i s).length := hocc.length_le
  have hi : i ≤ s.length := by
    by_contra hcon
    have : List.drop i s = [] := List.drop_eq_nil_of_le (by omega)
    rw [this] at hocc
    exact hd (List.eq_nil_of_prefix_nil hocc)
  simp only [List.length_drop] at hlen
  have hdl : 0 < d.length := List.length_pos.mpr hd
  omega

theorem isInfix_iff_drop {d s : List Nat} : d <:+: s ↔ ∃ j, d <+: List.drop j s := by
  constructor
  · rintro ⟨u, v, rfl⟩
    refine ⟨u.length, ?_⟩
    rw [List.append_assoc, List.drop_left]
    exact List.prefix_append d v
  · rintro ⟨j, w, hw⟩
    refine ⟨s.take j, w, ?_⟩
    rw [List.append_assoc, hw, List.take_append_drop]

theorem strFind_none_iff {d s : List Nat} (hd : d ≠ []) :
    strFind d s = none ↔ ¬ d <:+: s := by
  constructor
  · intro h hcon
    rcases isInfix_iff_drop.mp hcon with ⟨j, hj⟩
    exact strFind_none_drop hd h j hj
  · intro h
    cases hfind : strFind d s with
    | none => rfl
    | some i => exact absurd (isInfix_iff_drop.mpr ⟨i, strFind_some_drop hfind⟩) h

theorem explodeGo_congr {d : List Nat} (hd : d ≠ []) :
    ∀ (f₁ : Nat) (f₂ : Nat) (s : List Nat), s.length < f₁ → s.length < f₂ →
      explodeGo d f₁ s = explodeGo d f₂ s := by
  intro f₁
  induction f₁ with
  | zero => intro f₂ s h1; omega
  | succ k ih =>
    intro f₂ s h1 h2
    match f₂ with
    | 0 => omega
    | Nat.succ m =>
      simp only [explodeGo]
      cases hfind : strFind d s with
      | none => rfl
      | some i =>
        have hb := strFind_some_bounds hd hfind
        have hdl : 0 < d.length := List.length_pos.mpr hd
        dsimp only
        rw [ih m (s.drop (i + d.length)) (by simp only [List.length_drop]; omega)
          (by simp only [List.length_drop]; omega)]

theorem explode_unfold {d : List Nat} (hd : d ≠ []) (s : List Nat) :
    explode s d = match strFind d s with
      | none => [s]
      | some i => s.take i :: explode (s.drop (i + d.length)) d := by
  unfold explode
  conv_lhs => rw [explodeGo]
  cases hfind : strFind d s with
  | none => rfl
  | some i =>
    have hb := strFind_some_bounds hd hfind
    have hdl : 0 < d.length := List.length_pos.mpr hd
    dsimp only
    rw [explodeGo_congr hd s.length ((s.drop (i + d.length)).length + 1)
      (s.drop (i + d.length)) (by simp only [List.length_drop]; omega) (by omega)]

theorem explode_eq_single {d : List Nat} (hd : d ≠ []) {s : List Nat}
    (h : strFind d s = none) : explode s d = [s] := by
  rw [explode_unfold hd s, h]

theorem explode_eq_cons {d : List Nat} (hd : d ≠ []) {s : List Nat} {i : Nat}
    (h : strFind d s = some i) :
    explode s d = s.take i :: explode (s.drop (i + d.length)) d := by
  rw [explode_unfold hd s, h]

theorem explode_ne_nil {d : List Nat} (hd : d ≠ []) (s : List Nat) : explode s d ≠ [] := by
  cases hfind : strFind d s with
  | none => rw [explode_eq_single hd hfind]; simp
  | some i => rw [explode_eq_cons hd hfind]; simp

theorem explode_nil_eq {d : List Nat} (hd : d ≠ []) : explode [] d = [[]] := by
  have h : strFind d [] = none := by
    cases d with
    | nil => exact absurd rfl hd
    | cons a t => simp [strFind]
  exact explode_eq_single hd h

theorem explode_single {d : List Nat} (hd : d ≠ []) (s : List Nat) (h : ¬ d <:+: s) :
    explode s d = [s] := explode_eq_single hd ((strFind_none_iff hd).mpr h)

theorem split_at_occ {d s : List Nat} {i : Nat} (h : d <+: List.drop i s) :
    s = s.take i ++ d ++ s.drop (i + d.length) := by
  obtain ⟨w, hw⟩ := h
  have h2 : List.drop (i + d.length) s = w := by
    have h3 : List.drop d.length (List.drop i s) = w := by rw [← hw, List.drop_left]
    rw [List.drop_drop] at h3
    exact h3
  rw [h2, List.append_assoc, hw, List.take_append_drop]

theorem joinSpec_explode {d : List Nat} (hd : d ≠ []) :
    ∀ s : List Nat, joinSpec (explode s d) d = s := by
  intro s
  generalize hn : s.length = n
  induction n using Nat.strong_induction_on generalizing s with
  | _ n ih =>
    subst hn
    cases hfind : strFind d s with
    | none => rw [explode_eq_single hd hfind]; simp [joinSpec]
    | some i =>
      rw [explode_eq_cons hd hfind]
      have hb := strFind_some_bounds hd hfind
      have hdl : 0 < d.length := List.length_pos.mpr hd
      have hrec := ih (s.drop (i + d.length)).length
        (by simp only [List.length_drop]; omega) (s.drop (i + d.length)) rfl
      obtain ⟨x, xs, hx⟩ := List.exists_cons_of_ne_nil (explode_ne_nil hd (s.drop (i + d.length)))
      rw [hx] at hrec ⊢
      simp only [joinSpec]
      rw [hrec]
      exact (split_at_occ (strFind_some_drop hfind)).symm

theorem explode_mem_not_isInfix {d : List Nat} (hd : d ≠ []) :
    ∀ s x : List Nat, x ∈ explode s d → ¬ d <:+: x := by
  intro s
  generalize hn : s.length = n
  induction n using Nat.strong_induction_on generalizing s with
  | _ n ih =>
    subst hn
    intro x hmem
    cases hfind : strFind d s with
    | none =>
      rw [explode_eq_single hd hfind] at hmem
      simp only [List.mem_singleton] at hmem
      subst hmem
      exact (strFind_none_iff hd).mp hfind
    | some i =>
      rw [explode_eq_cons hd hfind] at hmem
      simp only [List.mem_cons] at hmem
      have hb := strFind_some_bounds hd hfind
      have hdl : 0 < d.length := List.length_pos.mpr hd
      rcases hmem with hmem | hmem
      · subst hmem
        intro hcon
        rcases isInfix_iff_drop.mp hcon with ⟨j, hj⟩
        have hj_lt : j < i := by
          by_contra hge
          have hnil : (s.take i).drop j = [] := by
            apply List.drop_eq_nil_of_le
            simp only [List.length_take]
            omega
          rw [hnil] at hj
          exact hd (List.eq_nil_of_prefix_nil hj)
        rw [List.drop_take] at hj
        have hj2 : d <+: List.drop j s := hj.trans ( List.take_prefix _ _)
        exact strFind_some_min hfind j hj_lt hj2
      · exact ih (s.drop (i + d.length)).length
          (by simp only [List.length_drop]; omega) (s.drop (i + d.length)) rfl x hmem

theorem explode_last_parts {d : List Nat} (hd : d ≠ []) :
    ∀ s : List Nat,
      ((explode s d).getLastD [] <:+ s) ∧
      (¬ d <:+: (explode s d).getLastD []) ∧
      (¬ d <:+: s → (explode s d).getLastD [] = s) ∧
      (d <:+: s → ∃ p, s = p ++ d ++ (explode s d).getLastD []) := by
  intro s
  generalize hn : s.length = n
  induction n using Nat.strong_induction_on generalizing s with
  | _ n ih =>
    subst hn
    cases hfind : strFind d s with
    | none =>
      rw [explode_eq_single hd hfind]
      rw [show ([s] : List (List Nat)).getLastD [] = s from rfl]
      refine ⟨List.suffix_refl s, (strFind_none_iff hd).mp hfind, fun _ => rfl, fun hcon => ?_⟩
      exact absurd hcon ((strFind_none_iff hd).mp hfind)
    | some i =>
      have hb := strFind_some_bounds hd hfind
      have hdl : 0 < d.length := List.length_pos.mpr hd
      obtain ⟨x, xs, hx⟩ := List.exists_cons_of_ne_nil (explode_ne_nil hd (s.drop (i + d.length)))
      have hlast : (explode s d).getLastD [] = (explode (s.drop (i + d.length)) d).getLastD [] := by
        rw [explode_eq_cons hd hfind, hx]
        simp only [List.getLastD_cons]
      obtain ⟨ih1, ih2, ih3, ih4⟩ := ih (s.drop (i + d.length)).length
        (by simp only [List.length_drop]; omega) (s.drop (i + d.length)) rfl
      have hsplit := split_at_occ (strFind_some_drop hfind)
      have hinf : d <:+: s := isInfix_iff_drop.mpr ⟨i, strFind_some_drop hfind⟩
      rw [hlast]
      refine ⟨ih1.trans (List.drop_suffix _ _), ih2, fun hcon => absurd hinf hcon, fun _ => ?_⟩
      by_cases hrest : d <:+: s.drop (i + d.length)
      · obtain ⟨p', hp'⟩ := ih4 hrest
        refine ⟨s.take i ++ d ++ p', ?_⟩
        conv_lhs => rw [hsplit, hp']
        simp only [List.append_assoc]
      · refine ⟨s.take i, ?_⟩
        rw [ih3 hrest]
        exact hsplit

theorem joinSpec_append_head (u w : List Nat) (xs : List (List Nat)) (d : List Nat) :
    joinSpec ((u ++ w) :: xs) d = u ++ joinSpec (w :: xs) d := by
  cases xs with
  | nil => rfl
  | cons y ys => simp [joinSpec, List.append_assoc]

theorem implode_fold_acc {d : List Nat} :
    ∀ (v : List (List Nat)) (acc : List Nat), acc ≠ [] →
      List.foldl (fun result s => (if 0 < result.length then result ++ d else result) ++ s) acc v
        = joinSpec (acc :: v) d := by
  intro v
  induction v with
  | nil => intro acc _; simp [joinSpec]
  | cons x xs ih =>
    intro acc h
    have hlen : 0 < acc.length := List.length_pos.mpr h
    simp only [List.foldl_cons, if_pos hlen]
    have hne : acc ++ d ++ x ≠ [] := by
      have : 0 < (acc ++ d ++ x).length := by
        simp only [List.length_append]
        omega
      exact List.ne_nil_of_length_pos this
    rw [ih _ hne, joinSpec_append_head (acc ++ d) x xs d]
    cases xs with
    | nil => simp [joinSpec, List.append_assoc]
    | cons y ys => simp [joinSpec, List.append_assoc]

theorem implode_eq_joinSpec {d : List Nat} :
    ∀ v : List (List Nat), implode v d = joinSpec (v.dropWhile List.isEmpty) d := by
  intro v
  induction v with
  | nil => rfl
  | cons x xs ih =>
    by_cases hx : x = []
    · subst hx
      have h1 : implode ([] :: xs) d = implode xs d := by
        simp [implode]
      rw [h1, ih]
      simp [List.dropWhile_cons]
    · have h1 : implode (x :: xs) d =
          List.foldl (fun result s => (if 0 < result.length then result ++ d else result) ++ s)
            x xs := by
        simp [implode, List.foldl_cons]
      rw [h1, implode_fold_acc xs x hx]
      have hx' : x.isEmpty = false := by
        cases x with
        | nil => exact absurd rfl hx
        | cons a t => rfl
      simp [List.dropWhile_cons, hx']

theorem prefix_of_append_le {l u v : List Nat} (h : l <+: u ++ v)
    (hlen : l.length ≤ u.length) : l <+: u := by
  rw [List.prefix_iff_eq_take] at h ⊢
  rw [List.take_append_eq_append_take, show l.length - u.length = 0 from by omega] at h
  simpa using h

theorem strFind_nil_needle {search : List Nat} (hs : search ≠ [])
    (h : strFind search [] = some i) : False := by
  cases search with
  | nil => exact hs rfl
  | cons a t => simp [strFind] at h

theorem replace_measure (repl : List Nat) {search res : List Nat} {pos i : Nat}
    (hs : search ≠ []) (hfind : strFind search (res.drop pos) = some i) :
    pos + i + search.length ≤ res.length ∧
    (res.take (i + pos) ++ repl ++ res.drop (i + pos + search.length)).length
        - (i + pos + repl.length) < res.length - pos := by
  have hsl : 0 < search.length := List.length_pos.mpr hs
  have hpos : pos ≤ res.length := by
    by_contra hc
    rw [List.drop_eq_nil_of_le (by omega)] at hfind
    exact strFind_nil_needle hs hfind
  have hb := strFind_some_bounds hs hfind
  simp only [List.length_drop] at hb
  constructor
  · omega
  · simp only [List.length_append, List.length_take, List.length_drop]
    omega

theorem replaceGo_congr {search repl : List Nat} (hs : search ≠ []) :
    ∀ (f₁ f₂ : Nat) (res : List Nat) (pos : Nat),
      res.length - pos < f₁ → res.length - pos < f₂ →
      replaceGo search repl f₁ res pos = replaceGo search repl f₂ res pos := by
  intro f₁
  induction f₁ with
  | zero => intro f₂ res pos h1; omega
  | succ k ih =>
    intro f₂ res pos h1 h2
    match f₂ with
    | 0 => omega
    | Nat.succ m =>
      simp only [replaceGo]
      cases hfind : strFind search (res.drop pos) with
      | none => rfl
      | some i =>
        simp only [Option.map_some']
        obtain ⟨hm1, hm2⟩ := replace_measure repl hs hfind
        exact ih m _ _ (by omega) (by omega)

theorem replaceSteps_eq_some {search repl : List Nat} (hs : search ≠ []) :
    ∀ (f : Nat) (res : List Nat) (pos : Nat), res.length - pos < f →
      replaceSteps search repl f res pos = some (replaceGo search repl f res pos) := by
  intro f
  induction f with
  | zero => intro res pos h; omega
  | succ k ih =>
    intro res pos h
    simp only [replaceSteps, replaceGo]
    cases hfind : strFind search (res.drop pos) with
    | none => rfl
    | some i =>
      simp only [Option.map_some']
      obtain ⟨hm1, hm2⟩ := replace_measure repl hs hfind
      exact ih _ _ (by omega)

theorem replaceSpec_nil (search repl : List Nat) : replaceSpec search repl [] = [] := by
  unfold replaceSpec
  split
  · next h =>
    exact absurd (List.eq_nil_of_prefix_nil ( List.isPrefixOf_iff_prefix.mp h.2)) h.1
  · rfl

theorem replaceSpec_pos {search : List Nat} (hs : search ≠ []) (repl subject : List Nat)
    (hp : search <+: subject) :
    replaceSpec search repl subject
      = repl ++ replaceSpec search repl (subject.drop search.length) := by
  conv_lhs => rw [replaceSpec]
  rw [dif_pos ⟨hs, List.isPrefixOf_iff_prefix.mpr hp⟩]

theorem replaceSpec_neg_cons {search : List Nat} {c : Nat} {t : List Nat}
    (hs : ¬ search <+: (c :: t)) (repl : List Nat) :
    replaceSpec search repl (c :: t) = c :: replaceSpec search repl t := by
  have hnc : ¬ (search ≠ [] ∧ search.isPrefixOf (c :: t) = true) := by
    intro hcon
    exact hs ( List.isPrefixOf_iff_prefix.mp hcon.2)
  conv_lhs => rw [replaceSpec]
  rw [dif_neg hnc]

theorem replaceSpec_no_occ {search repl : List Nat} (hs : search ≠ []) :
    ∀ rest : List Nat, (∀ j, ¬ search <+: List.drop j rest) →
      replaceSpec search repl rest = rest := by
  intro rest
  induction rest with
  | nil => intro _; exact replaceSpec_nil search repl
  | cons c t ih =>
    intro h
    rw [replaceSpec_neg_cons (by simpa using h 0) repl]
    rw [ih (fun j => by simpa using h (j + 1))]

theorem replaceSpec_first_occ {search repl : List Nat} (hs : search ≠ []) :
    ∀ (i : Nat) (rest : List Nat), search <+: List.drop i rest →
      (∀ j, j < i → ¬ search <+: List.drop j rest) →
      replaceSpec search repl rest
        = rest.take i ++ repl ++ replaceSpec search repl (rest.drop (i + search.length)) := by
  intro i
  induction i with
  | zero =>
    intro rest hocc _
    simp only [List.drop_zero] at hocc
    rw [replaceSpec_pos hs repl rest hocc]
    simp
  | succ k ih =>
    intro rest hocc hmin
    cases rest with
    | nil =>
      simp only [List.drop_nil] at hocc
      exact absurd (List.eq_nil_of_prefix_nil hocc) hs
    | cons c t =>
      have h0 : ¬ search <+: (c :: t) := by simpa using hmin 0 (by omega)
      rw [replaceSpec_neg_cons h0 repl]
      rw [ih t (by simpa using hocc) (fun j hj => by simpa using hmin (j + 1) (by omega))]
      have hidx : k + 1 + search.length = (k + search.length) + 1 := by omega
      simp only [List.take_succ_cons, hidx, List.drop_succ_cons, List.cons_append]

theorem replaceGo_spec {search repl : List Nat} (hs : search ≠ []) :
    ∀ rest : List Nat, ∀ (pre : List Nat) (f : Nat), rest.length < f →
      replaceGo search repl f (pre ++ rest) pre.length
        = pre ++ replaceSpec search repl rest := by
  intro rest
  generalize hn : rest.length = n
  induction n using Nat.strong_induction_on generalizing rest with
  | _ n ih =>
    subst hn
    intro pre f hf
    match f with
    | 0 => omega
    | Nat.succ m =>
      simp only [replaceGo]
      rw [List.drop_left]
      cases hfind : strFind search rest with
      | none =>
        simp only [Option.map_none']
        rw [replaceSpec_no_occ hs rest (strFind_none_drop hs hfind)]
      | some i =>
        simp only [Option.map_some']
        have hsl : 0 < search.length := List.length_pos.mpr hs
        have hb := strFind_some_bounds hs hfind
        have htake : (pre ++ rest).take (i + pre.length) = pre ++ rest.take i := by
          rw [List.take_append_eq_append_take,
            List.take_of_length_le (by omega), Nat.add_sub_cancel]
        have hdrop : (pre ++ rest).drop (i + pre.length + search.length)
            = rest.drop (i + search.length) := by
          rw [List.drop_append_eq_append_drop,
            List.drop_eq_nil_of_le (by omega), List.nil_append]
          congr 1
          omega
        rw [htake, hdrop]
        have hpre' : pre ++ rest.take i ++ repl ++ rest.drop (i + search.length)
            = (pre ++ rest.take i ++ repl) ++ rest.drop (i + search.length) := by
          simp [List.append_assoc]
        have hpos' : i + pre.length + repl.length
            = (pre ++ rest.take i ++ repl).length := by
          simp only [List.length_append, List.length_take]
          omega
        rw [hpre', hpos',
          ih (rest.drop (i + search.length)).length
            (by simp only [List.length_drop]; omega)
            (rest.drop (i + search.length)) rfl (pre ++ rest.take i ++ repl) m
            (by simp only [List.length_drop]; omega)]
        rw [replaceSpec_first_occ hs i rest (strFind_some_drop hfind)
          (strFind_some_min hfind)]
        simp [List.append_assoc]

theorem replace_eq_replaceSpec {search repl subject : List Nat} (hs : search ≠ []) :
    replace search repl subject = replaceSpec search repl subject := by
  unfold replace
  rw [if_neg hs]
  have h : replaceGo search repl (subject.length + 1) ([] ++ subject) ([] : List Nat).length
      = [] ++ replaceSpec search repl subject :=
    replaceGo_spec hs subject [] (subject.length + 1) (by omega)
  simpa using h

theorem dropWhile_dropWhile {α : Type} (p : α → Bool) :
    ∀ l : List α, List.dropWhile p (List.dropWhile p l) = List.dropWhile p l := by
  intro l
  induction l with
  | nil => rfl
  | cons a t ih => cases h : p a <;> simp [List.dropWhile_cons, h, ih]

theorem dropWhile_of_head_false {α : Type} (p : α → Bool) (a : α) (t : List α)
    (h : p a = false) : List.dropWhile p (a :: t) = a :: t := by
  simp [List.dropWhile_cons, h]

theorem head_false_of_dropWhile_self {α : Type} (p : α → Bool) (a : α) (t : List α)
    (h : List.dropWhile p (a :: t) = a :: t) : p a = false := by
  by_contra hc
  rw [List.dropWhile_cons, if_pos (by simpa using hc)] at h
  have hlen := congrArg List.length h
  have hle := (List.dropWhile_sublist p (l := t)).length_le
  simp only [List.length_cons] at hlen
  omega

theorem rtrim_ltrim_rtrim (s : List Nat) : rtrim (ltrim (rtrim s)) = ltrim (rtrim s) := by
  have hfix : (rtrim s).reverse.dropWhile (fun b => !isgraphB b) = (rtrim s).reverse := by
    have h1 : (rtrim s).reverse = s.reverse.dropWhile (fun b => !isgraphB b) := by
      simp [rtrim]
    rw [h1]
    exact dropWhile_dropWhile _ _
  have hsuf : ltrim (rtrim s) <:+ rtrim s := List.dropWhile_suffix _
  obtain ⟨u, hu⟩ := hsuf
  cases hr : (ltrim (rtrim s)).reverse with
  | nil =>
    have h0 : ltrim (rtrim s) = [] := by
      have := congrArg List.reverse hr
      simpa using this
    rw [h0]
    rfl
  | cons a rs =>
    have hrev : (rtrim s).reverse = a :: (rs ++ u.reverse) := by
      rw [← hu]
      simp [hr]
    have ha : (fun b => !isgraphB b) a = false := by
      apply head_false_of_dropWhile_self (fun b => !isgraphB b) a (rs ++ u.reverse)
      rw [← hrev]
      exact hfix
    show (((ltrim (rtrim s)).reverse).dropWhile (fun b => !isgraphB b)).reverse
        = ltrim (rtrim s)
    rw [hr, dropWhile_of_head_false (fun b => !isgraphB b) a rs ha, ← hr]
    simp

theorem trim_idem (s : List Nat) : trim (trim s) = trim s := by
  show ltrim (rtrim (ltrim (rtrim s))) = ltrim (rtrim s)
  rw [rtrim_ltrim_rtrim]
  exact dropWhile_dropWhile _ _

theorem tolowerB_idem (b : Nat) : tolowerB (tolowerB b) = tolowerB b := by
  unfold tolowerB
  split_ifs <;> omega

theorem strtolower_idem (s : List Nat) : strtolower (strtolower s) = strtolower s := by
  induction s with
  | nil => rfl
  | cons a t ih =>
    simp only [strtolower, List.map_cons] at ih ⊢
    rw [tolowerB_idem, ih]

theorem explode_joinSpec_good {d : List Nat} (hd : d ≠ []) :
    ∀ parts : List (List Nat), parts ≠ [] → goodParts d parts = true →
      explode (joinSpec parts d) d = parts := by
  intro parts
  induction parts with
  | nil => intro h _; exact absurd rfl h
  | cons x xs ih =>
    intro _ hg
    cases xs with
    | nil =>
      have hx : ¬ d <:+: x := by simpa [goodParts] using hg
      exact explode_single hd x hx
    | cons y ys =>
      have hg12 : (decide (strFind d (x ++ d) = some x.length)
          && goodParts d (y :: ys)) = true := by
        simpa [goodParts] using hg
      rw [Bool.and_eq_true] at hg12
      have hg1 : strFind d (x ++ d) = some x.length := by simpa using hg12.1
      have hg2 : goodParts d (y :: ys) = true := hg12.2
      have hJ : joinSpec (x :: y :: ys) d = x ++ (d ++ joinSpec (y :: ys) d) := by
        simp [joinSpec, List.append_assoc]
      rw [hJ]
      have hocc : d <+: List.drop x.length (x ++ (d ++ joinSpec (y :: ys) d)) := by
        rw [List.drop_left]
        exact List.prefix_append d _
      have hmin : ∀ j, j < x.length →
          ¬ d <+: List.drop j (x ++ (d ++ joinSpec (y :: ys) d)) := by
        intro j hj hcon
        have hdropj : List.drop j (x ++ (d ++ joinSpec (y :: ys) d))
            = List.drop j x ++ (d ++ joinSpec (y :: ys) d) := by
          rw [List.drop_append_eq_append_drop, show j - x.length = 0 from by omega]
          simp
        rw [hdropj, ← List.append_assoc] at hcon
        have hcon2 : d <+: List.drop j x ++ d :=
          prefix_of_append_le hcon (by simp only [List.length_append]; omega)
        have hxd : List.drop j (x ++ d) = List.drop j x ++ d := by
          rw [List.drop_append_eq_append_drop, show j - x.length = 0 from by omega]
          simp
        exact strFind_some_min hg1 j hj (by rw [hxd]; exact hcon2)
      have hfind : strFind d (x ++ (d ++ joinSpec (y :: ys) d)) = some x.length :=
        strFind_eq_some hocc hmin
      rw [explode_eq_cons hd hfind]
      congr 1
      · exact List.take_left x _
      · have hdropR : List.drop (x.length + d.length) (x ++ (d ++ joinSpec (y :: ys) d))
            = joinSpec (y :: ys) d := by
          rw [← List.append_assoc,
            show x.length + d.length = (x ++ d).length from by simp, List.drop_left]
        rw [hdropR]
        exact ih (by simp) hg2

/-- Claim C1, counterexample.  The claim says every failure of `parse_addr`
yields an error carrying the original input text; in the source the thrown
`std::runtime_error` has the fixed message "Could not parse the provided
address.", which does not contain the input.  At input "zzz" with a failing
resolver, the error is the fixed message and the input is not part of it. -/
theorem parse_addr_error_lacks_input_text :
    parse_addr (fun _ => ((-1 : Int), ([] : List AddrInfo))) (strBytes "zzz")
        = Except.error errMsg
      ∧ ¬ strBytes "zzz" <:+: errMsg := by
  constructor
  · rfl
  · decide

/-- Claim C1 (amended): for every input, if the resolution call fails
(non-zero status), returns no result, or returns a first result whose
family is neither `AF_INET` nor `AF_INET6`, then `parse_addr` fails with
the single fixed error "Could not parse the provided address." (which does
not carry the input text), and no `sockaddr_storage` is returned on any
failure path. -/
theorem parse_addr_failure_silent (resolver : List Nat → Int × List AddrInfo)
    (addr : List Nat) (rc : Int) (res : List AddrInfo)
    (hres : resolver addr = (rc, res))
    (h : rc ≠ 0 ∨ res = [] ∨
      ∃ c cs, res = c :: cs ∧ c.ai_family ≠ AF_INET ∧ c.ai_family ≠ AF_INET6) :
    parse_addr resolver addr = Except.error errMsg := by
  unfold parse_addr
  rw [hres]
  dsimp only
  rcases h with h | h | ⟨c, cs, hcc, hf4, hf6⟩
  · rw [if_pos h]
  · subst h
    by_cases hrc : rc ≠ 0
    · rw [if_pos hrc]
    · rw [if_neg hrc]
  · subst hcc
    by_cases hrc : rc ≠ 0
    · rw [if_pos hrc]
    · rw [if_neg hrc]
      dsimp only
      rw [if_pos ⟨hf4, hf6⟩]

/-- Witness for the amended claim C1 at a concrete failing resolver and
input. -/
theorem parse_addr_failure_silent_witness :
    parse_addr (fun _ => ((1 : Int), ([] : List AddrInfo))) (strBytes "example.com")
      = Except.error errMsg :=
  parse_addr_failure_silent (fun _ => ((1 : Int), ([] : List AddrInfo)))
    (strBytes "example.com") 1 [] rfl (Or.inl (by decide))

/-- Claim C2: whenever `parse_addr` succeeds, the resolution call returned
status 0 with a non-empty result list, the returned storage's family is the
family the service reported for the first candidate and is `AF_INET` or
`AF_INET6`, and the storage's payload bytes are a verbatim copy of the
first candidate's raw address bytes. -/
theorem parse_addr_success_first (resolver : List Nat → Int × List AddrInfo)
    (addr : List Nat) (r : SockaddrStorage)
    (h : parse_addr resolver addr = Except.ok r) :
    ∃ c cs, resolver addr = (0, c :: cs) ∧
      (c.ai_family = AF_INET ∨ c.ai_family = AF_INET6) ∧
      r.ss_family = c.ai_family ∧ r.sa_data = c.sa_data := by
  unfold parse_addr at h
  rcases hres : resolver addr with ⟨rc, res⟩
  rw [hres] at h
  dsimp only at h
  by_cases hrc : rc ≠ 0
  · rw [if_pos hrc] at h
    cases h
  · rw [if_neg hrc] at h
    have hrc0 : rc = 0 := by omega
    subst hrc0
    cases res with
    | nil => cases h
    | cons c cs =>
      dsimp only at h
      by_cases hf : c.ai_family ≠ AF_INET ∧ c.ai_family ≠ AF_INET6
      · rw [if_pos hf] at h
        cases h
      · rw [if_neg hf] at h
        injection h with h2
        subst h2
        refine ⟨c, cs, rfl, ?_, rfl, rfl⟩
        by_cases h4 : c.ai_family = AF_INET
        · exact Or.inl h4
        · right
          by_contra h6
          exact hf ⟨h4, h6⟩

/-- Witness for claim C2 at a concrete succeeding resolver and input. -/
theorem parse_addr_success_first_witness :
    ∃ c cs, (fun _ => ((0 : Int), [AddrInfo.mk 2 [127, 0, 0, 1]])) (strBytes "127.0.0.1")
        = ((0 : Int), c :: cs) ∧
      (c.ai_family = AF_INET ∨ c.ai_family = AF_INET6) ∧
      (SockaddrStorage.mk 2 [127, 0, 0, 1]).ss_family = c.ai_family ∧
      (SockaddrStorage.mk 2 [127, 0, 0, 1]).sa_data = c.sa_data :=
  parse_addr_success_first (fun _ => ((0 : Int), [AddrInfo.mk 2 [127, 0, 0, 1]]))
    (strBytes "127.0.0.1") ⟨2, [127, 0, 0, 1]⟩ rfl

/-- Claim C3, counterexample.  The claim says `implode` inserts the
delimiter strictly between every pair of consecutive elements (formalised
by `joinSpec`); but the source only appends a delimiter when the
accumulated result is non-empty, so a leading empty element receives no
delimiter: `implode(["", "b"], "-")` is "b", not "-b". -/
theorem implode_leading_empty_cex :
    implode [[], strBytes "b"] (strBytes "-") = strBytes "b" ∧
    joinSpec [[], strBytes "b"] (strBytes "-") = strBytes "-b" ∧
    implode [[], strBytes "b"] (strBytes "-") ≠ joinSpec [[], strBytes "b"] (strBytes "-") := by
  refine ⟨by decide, by decide, by decide⟩

/-- Claim C3 (amended): `implode` concatenates the elements in order with
the delimiter between consecutive elements, except that no delimiter is
emitted while everything accumulated so far is empty — equivalently it
equals the specified join applied after dropping leading empty elements.
Empty input still yields the empty string and a single element is returned
unchanged. -/
theorem implode_join_amended (parts : List (List Nat)) (d : List Nat) :
    implode parts d = joinSpec (parts.dropWhile List.isEmpty) d ∧
    implode [] d = [] ∧ ∀ x : List Nat, implode [x] d = x := by
  refine ⟨implode_eq_joinSpec parts, rfl, fun x => ?_⟩
  simp [implode]

/-- Claim C4, counterexample.  The round-trip `split(join(parts, d), d) =
parts` fails under the claim's hypotheses (`d` non-empty, no element
contains `d`): for `parts = []` the split of the empty string is `[""]`;
for `parts = ["", "b"]`, `implode` drops the leading delimiter; and for
`parts = ["b", "c"]` with `d = "bb"` an occurrence of `d` straddles the
element–delimiter boundary of the join "bbbc", which splits as ["", "bc"]. -/
theorem explode_implode_roundtrip_cex :
    strBytes "," ≠ [] ∧ strBytes "-" ≠ [] ∧ strBytes "bb" ≠ [] ∧
    explode (implode ([] : List (List Nat)) (strBytes ",")) (strBytes ",") ≠ [] ∧
    (∀ x ∈ [[], strBytes "b"], ¬ strBytes "-" <:+: x) ∧
    explode (implode [[], strBytes "b"] (strBytes "-")) (strBytes "-") ≠ [[], strBytes "b"] ∧
    (∀ x ∈ [strBytes "b", strBytes "c"], ¬ strBytes "bb" <:+: x) ∧
    explode (implode [strBytes "b", strBytes "c"] (strBytes "bb")) (strBytes "bb")
      ≠ [strBytes "b", strBytes "c"] := by decide

/-- Claim C4 (amended): `explode (implode parts d) d = parts` holds when
`d` is non-empty, `parts` is non-empty with a non-empty first element, and
the boundary condition `goodParts` holds: the only occurrence of `d` in
`x ++ d` is the trailing one for every non-final element `x` (so `d`
neither occurs inside an element nor straddles a boundary), and the final
element does not contain `d`. -/
theorem explode_implode_roundtrip (p : List Nat) (ps : List (List Nat)) (d : List Nat)
    (hd : d ≠ []) (hp : p ≠ []) (hg : goodParts d (p :: ps) = true) :
    explode (implode (p :: ps) d) d = p :: ps := by
  have h1 : implode (p :: ps) d = joinSpec (p :: ps) d := by
    rw [implode_eq_joinSpec]
    have hpe : p.isEmpty = false := by
      cases p with
      | nil => exact absurd rfl hp
      | cons a t => rfl
    simp [List.dropWhile_cons, hpe]
  rw [h1]
  exact explode_joinSpec_good hd (p :: ps) (by simp) hg

/-- Witness for the amended claim C4 at concrete parts and delimiter. -/
theorem explode_implode_roundtrip_witness :
    strBytes "-" ≠ [] ∧ strBytes "a" ≠ [] ∧
    goodParts (strBytes "-") [strBytes "a", strBytes "b"] = true ∧
    explode (implode [strBytes "a", strBytes "b"] (strBytes "-")) (strBytes "-")
      = [strBytes "a", strBytes "b"] :=
  ⟨by decide, by decide, by decide,
    explode_implode_roundtrip (strBytes "a") [strBytes "b"] (strBytes "-")
      (by decide) (by decide) (by decide)⟩

/-- Claim C5: for every string and non-empty delimiter, `explode` cuts the
string at every non-overlapping occurrence of the delimiter scanning left
to right: joining the pieces with the delimiter restores the string, no
piece contains the delimiter, a string not containing the delimiter yields
the one-element sequence of itself, the empty string yields one empty
piece, and the spec's examples hold. -/
theorem explode_splits (s d : List Nat) (hd : d ≠ []) :
    joinSpec (explode s d) d = s ∧
    (∀ x ∈ explode s d, ¬ d <:+: x) ∧
    (¬ d <:+: s → explode s d = [s]) ∧
    explode ([] : List Nat) d = [[]] ∧
    explode (strBytes "a,,b") (strBytes ",") = [strBytes "a", [], strBytes "b"] ∧
    explode (strBytes "abc") (strBytes ",") = [strBytes "abc"] :=
  ⟨joinSpec_explode hd s, fun x hx => explode_mem_not_isInfix hd s x hx,
    explode_single hd s, explode_nil_eq hd, by decide, by decide⟩

/-- Witness for claim C5 at a concrete string and delimiter. -/
theorem explode_splits_witness :
    strBytes "," ≠ [] ∧
      (joinSpec (explode (strBytes "x,y") (strBytes ",")) (strBytes ",") = strBytes "x,y" ∧
      (∀ x ∈ explode (strBytes "x,y") (strBytes ","), ¬ strBytes "," <:+: x) ∧
      (¬ strBytes "," <:+: strBytes "x,y" →
        explode (strBytes "x,y") (strBytes ",") = [strBytes "x,y"]) ∧
      explode ([] : List Nat) (strBytes ",") = [[]] ∧
      explode (strBytes "a,,b") (strBytes ",") = [strBytes "a", [], strBytes "b"] ∧
      explode (strBytes "abc") (strBytes ",") = [strBytes "abc"]) :=
  ⟨by decide, explode_splits (strBytes "x,y") (strBytes ",") (by decide)⟩

/-- Claim C6: `replace` replaces every non-overlapping occurrence of
`search` scanning left to right without re-scanning inserted replacement
text (formalised by the spec-side scanner `replaceSpec`), and returns the
subject unchanged when `search` is empty; the spec's examples hold. -/
theorem replace_spec_correct (search repl subject : List Nat) :
    replace search repl subject
        = (if search = [] then subject else replaceSpec search repl subject) ∧
    replace (strBytes "a") (strBytes "bb") (strBytes "banana") = strBytes "bbbnbbnbb" ∧
    replace [] (strBytes "x") (strBytes "abc") = strBytes "abc" := by
  refine ⟨?_, by decide, by decide⟩
  by_cases hs : search = []
  · rw [if_pos hs]
    unfold replace
    rw [if_pos hs]
  · rw [if_neg hs]
    exact replace_eq_replaceSpec hs

/-- Claim C7: `trim` and `strtolower` are idempotent. -/
theorem trim_strtolower_idem (s : List Nat) :
    trim (trim s) = trim s ∧ strtolower (strtolower s) = strtolower s :=
  ⟨trim_idem s, strtolower_idem s⟩

/-- Claim C8: for a non-empty delimiter, `explode` always returns at least
one element, and its last element is the suffix of the input that follows
the final delimiter occurrence consumed by the left-to-right scan: it is a
suffix of the input, contains no further occurrence of the delimiter, is
the whole input when the delimiter does not occur, and otherwise is
preceded in the input by a delimiter occurrence. -/
theorem explode_last_suffix (s d : List Nat) (hd : d ≠ []) :
    explode s d ≠ [] ∧
    (explode s d).getLastD [] <:+ s ∧
    ¬ d <:+: (explode s d).getLastD [] ∧
    (¬ d <:+: s → (explode s d).getLastD [] = s) ∧
    (d <:+: s → ∃ p, s = p ++ d ++ (explode s d).getLastD []) := by
  obtain ⟨h1, h2, h3, h4⟩ := explode_last_parts hd s
  exact ⟨explode_ne_nil hd s, h1, h2, h3, h4⟩

/-- Witness for claim C8 at a concrete string and delimiter. -/
theorem explode_last_suffix_witness :
    strBytes "," ≠ [] ∧
      (explode (strBytes "a,b") (strBytes ",") ≠ [] ∧
      (explode (strBytes "a,b") (strBytes ",")).getLastD [] <:+ strBytes "a,b" ∧
      ¬ strBytes "," <:+: (explode (strBytes "a,b") (strBytes ",")).getLastD [] ∧
      (¬ strBytes "," <:+: strBytes "a,b" →
        (explode (strBytes "a,b") (strBytes ",")).getLastD [] = strBytes "a,b") ∧
      (strBytes "," <:+: strBytes "a,b" →
        ∃ p, strBytes "a,b" = p ++ strBytes "," ++
          (explode (strBytes "a,b") (strBytes ",")).getLastD [])) :=
  ⟨by decide, explode_last_suffix (strBytes "a,b") (strBytes ",") (by decide)⟩

/-- Claim C9: `repeat` with a count less than or equal to zero returns the
empty string — the loop `for (i = 0; i < n; i++)` runs zero times, clamping
non-positive counts rather than rejecting them. -/
theorem repeat_nonpos (s : List Nat) (n : Int) (h : n ≤ 0) : repeatStr s n = [] := by
  unfold repeatStr
  rw [Int.toNat_of_nonpos h]
  rfl

/-- Witness for claim C9 at a concrete string and negative count. -/
theorem repeat_nonpos_witness :
    ((-3 : Int) ≤ 0) ∧ repeatStr (strBytes "ab") (-3) = [] :=
  ⟨by decide, repeat_nonpos (strBytes "ab") (-3) (by decide)⟩

/-- Claim C10: for a non-empty search string, the replacement loop
terminates on every subject and replacement — it exits within
`subject.length + 1` iterations (the scan position strictly advances past
each inserted replacement), including when the replacement contains the
search string. -/
theorem replace_terminates (search repl subject : List Nat) (hs : search ≠ []) :
    replaceSteps search repl (subject.length + 1) subject 0
      = some (replace search repl subject) := by
  unfold replace
  rw [if_neg hs]
  exact replaceSteps_eq_some hs (subject.length + 1) subject 0 (by omega)

/-- Witness for claim C10 with a replacement that contains the search
string as a substring. -/
theorem replace_terminates_witness :
    strBytes "a" ≠ [] ∧
      replaceSteps (strBytes "a") (strBytes "aa") ((strBytes "aa").length + 1)
          (strBytes "aa") 0
        = some (replace (strBytes "a") (strBytes "aa") (strBytes "aa")) :=
  ⟨by decide, replace_terminates (strBytes "a") (strBytes "aa") (strBytes "aa") (by decide)⟩

